import Mathlib

/-!
Verification of the raw-pixel addressing engine of the embedded-graphics
repository (`src/core/src/pixelcolor/raw/mod.rs`) and of the mono-font
draw-target adapter (`src/src/mono_font/draw_target.rs`).

The `RawUx` masked-value family, its `new` / `into_inner` / `from_u32` /
`From<storage>` operations and the `MASK` constant are embedded directly
from the `impl_raw_data!` macro in `mod.rs`.  The `load`/`store` addressing
functions live in the repository's `load_store` module, whose source file is
not available; they are modelled from the specification (section 4.2) and
marked as such below.

Machine integers are embedded as `Nat` with explicit masking; a Rust `u8`
buffer is a `List Nat` whose elements are below 256 where that matters.
-/

set_option maxRecDepth 20000

/-- Data order selector: the two packing conventions `LittleEndianMsb0` and
`BigEndianLsb0` from `mod.rs`. -/
inductive DataOrder where
  | littleEndianMsb0
  | bigEndianLsb0
deriving DecidableEq

/-- Out of bounds error, a zero-payload marker (`pub struct OutOfBoundsError`). -/
inductive OutOfBoundsError where
  | outOfBoundsError
deriving DecidableEq

/-- One member of the `RawUx` family: its bits per pixel and the bit width of
the unsigned integer storage type chosen by `impl_raw_data!`. -/
structure RawKind where
  bpp : Nat
  storageBits : Nat
deriving DecidableEq

/-- `RawU1`, 1 bit per pixel stored in a `u8`. -/
def RawU1 : RawKind := ⟨1, 8⟩

/-- `RawU2`, 2 bits per pixel stored in a `u8`. -/
def RawU2 : RawKind := ⟨2, 8⟩

/-- `RawU4`, 4 bits per pixel stored in a `u8`. -/
def RawU4 : RawKind := ⟨4, 8⟩

/-- `RawU8`, 8 bits per pixel stored in a `u8`. -/
def RawU8 : RawKind := ⟨8, 8⟩

/-- `RawU16`, 16 bits per pixel stored in a `u16`. -/
def RawU16 : RawKind := ⟨16, 16⟩

/-- `RawU24`, 24 bits per pixel stored in a `u32`. -/
def RawU24 : RawKind := ⟨24, 32⟩

/-- `RawU32`, 32 bits per pixel stored in a `u32`. -/
def RawU32 : RawKind := ⟨32, 32⟩

/-- The closed (sealed) set of the seven `RawUx` instantiations of
`impl_raw_data!` in `mod.rs`. -/
def allRawKinds : List RawKind :=
  [RawU1, RawU2, RawU4, RawU8, RawU16, RawU24, RawU32]

/-- `const MASK: Self::Storage = Self::Storage::MAX >> (Self::Storage::BITS - $bpp)`
from `mod.rs`, with `Storage::MAX = 2 ^ storageBits - 1`. -/
def RawKind.MASK (K : RawKind) : Nat :=
  (2 ^ K.storageBits - 1) >>> (K.storageBits - K.bpp)

/-- The newtype `pub struct $type($storage_type)` generated by
`impl_raw_data!`; `val` is the wrapped storage integer (field `.0`). -/
structure RawValue (K : RawKind) where
  val : Nat
deriving DecidableEq

/-- `pub const fn new(value) -> Self { $type(value & MASK) }` from `mod.rs`. -/
def RawValue.new (K : RawKind) (value : Nat) : RawValue K :=
  ⟨value &&& K.MASK⟩

/-- `fn into_inner(self) -> Self::Storage { self.0 }` from `mod.rs`. -/
def RawValue.into_inner {K : RawKind} (r : RawValue K) : Nat :=
  r.val

/-- `fn from_u32(value: u32) -> Self { Self::new(value as $storage_type) }`
from `mod.rs`; the `as` cast truncates `value` to the storage width. -/
def RawValue.from_u32 (K : RawKind) (value : Nat) : RawValue K :=
  RawValue.new K (value % 2 ^ K.storageBits)

/-- `impl From<$storage_type> for $type { fn from(value) { Self::new(value) } }`
from `mod.rs`. -/
def RawValue.fromStorage (K : RawKind) (value : Nat) : RawValue K :=
  RawValue.new K value

/-- Modelled from the spec: the sub-byte shift formula of the addressing
engine (section 4.2); the repository's `load_store` module source is missing.
`LittleEndianMsb0`: `shift = 8 - width - slot*width`; `BigEndianLsb0`:
`shift = slot*width`. -/
def subByteShift (order : DataOrder) (bpp slot : Nat) : Nat :=
  match order with
  | .littleEndianMsb0 => 8 - bpp - slot * bpp
  | .bigEndianLsb0 => slot * bpp

/-- Modelled from the spec: splitting a storage value into `n` bytes,
least-significant byte first (section 4.2, byte-aligned store case); the
repository's `load_store` module source is missing. -/
def valueToBytesLE : Nat → Nat → List Nat
  | 0, _ => []
  | n + 1, v => (v &&& 255) :: valueToBytesLE n (v >>> 8)

/-- Modelled from the spec: assembling consecutive bytes into a storage
value, least-significant byte first (section 4.2, byte-aligned load case);
the repository's `load_store` module source is missing. -/
def bytesToValueLE : List Nat → Nat
  | [] => 0
  | b :: bs => b + 256 * bytesToValueLE bs

/-- Modelled from the spec: reading `n` consecutive bytes of the buffer
starting at byte offset `off` (section 4.2); the repository's `load_store`
module source is missing. -/
def readBytes (buffer : List Nat) : Nat → Nat → List Nat
  | _, 0 => []
  | off, n + 1 => buffer.getD off 0 :: readBytes buffer (off + 1) n

/-- Modelled from the spec: overwriting consecutive bytes of the buffer
starting at byte offset `off` (section 4.2, byte-aligned store case); the
repository's `load_store` module source is missing. -/
def setBytes : List Nat → Nat → List Nat → List Nat
  | buffer, _, [] => buffer
  | buffer, off, b :: bs => setBytes (buffer.set off b) (off + 1) bs

/-- Modelled from the spec: the read-modify-write on one byte shared by
several sub-byte pixels (section 4.2, store step 3):
`byte & !(mask << shift) | ((value & mask) << shift)`, with `!` the `u8`
complement; the repository's `load_store` module source is missing. -/
def storeSubByte (bpp : Nat) (order : DataOrder) (value slot b : Nat) : Nat :=
  let mask := 2 ^ bpp - 1
  let shift := subByteShift order bpp slot
  (b &&& (255 ^^^ (mask <<< shift))) ||| ((value &&& mask) <<< shift)

/-- Modelled from the spec: `load(buffer, index)` of the addressing engine
(section 4.2); the repository's `load_store` module source is missing.
Returns the assembled, already-masked storage value, or `none` when the bit
range `[index*width, index*width + width)` exceeds `buffer.length * 8`. -/
def rawLoad (bpp : Nat) (order : DataOrder) (buffer : List Nat) (index : Nat) :
    Option Nat :=
  if (index + 1) * bpp > buffer.length * 8 then
    none
  else if bpp % 8 = 0 then
    let n := bpp / 8
    let bytes := readBytes buffer (index * n) n
    match order with
    | .littleEndianMsb0 => some (bytesToValueLE bytes)
    | .bigEndianLsb0 => some (bytesToValueLE bytes.reverse)
  else
    let perByte := 8 / bpp
    let byteIndex := index / perByte
    if byteIndex ≥ buffer.length then
      none
    else
      let slot := index % perByte
      let shift := subByteShift order bpp slot
      some ((buffer.getD byteIndex 0 >>> shift) &&& (2 ^ bpp - 1))

/-- Modelled from the spec: `store(value, buffer, index)` of the addressing
engine (section 4.2); the repository's `load_store` module source is missing.
Mirrors `rawLoad`'s addressing; byte-aligned widths overwrite whole bytes,
sub-byte widths do a read-modify-write on the shared byte.  Fails loudly
with `OutOfBoundsError` exactly where `rawLoad` fails silently. -/
def rawStore (bpp : Nat) (order : DataOrder) (value : Nat) (buffer : List Nat)
    (index : Nat) : Except OutOfBoundsError (List Nat) :=
  if (index + 1) * bpp > buffer.length * 8 then
    .error .outOfBoundsError
  else if bpp % 8 = 0 then
    let n := bpp / 8
    let bytes := match order with
      | .littleEndianMsb0 => valueToBytesLE n value
      | .bigEndianLsb0 => (valueToBytesLE n value).reverse
    .ok (setBytes buffer (index * n) bytes)
  else
    let perByte := 8 / bpp
    let byteIndex := index / perByte
    if byteIndex ≥ buffer.length then
      .error .outOfBoundsError
    else
      let slot := index % perByte
      .ok (buffer.set byteIndex (storeSubByte bpp order value slot (buffer.getD byteIndex 0)))

/-- `fn load<O: DataOrder>(buffer, index) -> Option<Self>` of the `RawData`
trait, wrapping the addressing engine's result in the masked-value type. -/
def RawValue.load (K : RawKind) (order : DataOrder) (buffer : List Nat)
    (index : Nat) : Option (RawValue K) :=
  (rawLoad K.bpp order buffer index).map (fun v => ⟨v⟩)

/-- `fn store<O: DataOrder>(self, buffer, index) -> Result<(), OutOfBoundsError>`
of the `RawData` trait; state-passing embedding returning the new buffer. -/
def RawValue.store {K : RawKind} (r : RawValue K) (order : DataOrder)
    (buffer : List Nat) (index : Nat) : Except OutOfBoundsError (List Nat) :=
  rawStore K.bpp order r.val buffer index

/-- `BinaryColor` as used by the mono-font draw target. -/
inductive BinaryColor where
  | off
  | on
deriving DecidableEq

/-- `fill_solid` of `MonoFontDrawTarget<Foreground>` from `draw_target.rs`:
`On` delegates to the parent with the foreground color, `Off` is `Ok(())`.
The parent draw target is embedded state-passing style as a function from
area, color and parent state to a result carrying the new parent state. -/
def foregroundFillSolid {S Rect C E : Type}
    (parentFillSolid : Rect → C → S → Except E S) (foregroundColor : C)
    (area : Rect) (color : BinaryColor) (parent : S) : Except E S :=
  match color with
  | .on => parentFillSolid area foregroundColor parent
  | .off => .ok parent

/-- `fill_solid` of `MonoFontDrawTarget<Background>` from `draw_target.rs`:
`On` is `Ok(())`, `Off` delegates to the parent with the background color. -/
def backgroundFillSolid {S Rect C E : Type}
    (parentFillSolid : Rect → C → S → Except E S) (backgroundColor : C)
    (area : Rect) (color : BinaryColor) (parent : S) : Except E S :=
  match color with
  | .on => .ok parent
  | .off => parentFillSolid area backgroundColor parent

/-! ### Basic facts about the masked-value family -/

/-- For each of the seven kinds, the macro's `MASK` is `2 ^ bpp - 1`. -/
theorem RawKind.MASK_eq : ∀ K ∈ allRawKinds, K.MASK = 2 ^ K.bpp - 1 := by
  decide

/-- For each of the seven kinds, the bit width fits in the storage width. -/
theorem RawKind.bpp_le_storageBits : ∀ K ∈ allRawKinds, K.bpp ≤ K.storageBits := by
  decide

/-! ### Claims -/

/-- C4: for every width in {1,2,4,8,16,24,32} and every storage value `v`,
`new(v).into_inner() = v &&& (2 ^ width - 1)` (the mask computed in the
storage width equals `2 ^ width - 1`, the storage type's full range when the
width is the storage width); concretely `RawU1::new(0xFF) = 0x1`,
`RawU2::new(0xFF) = 0x3`, `RawU4::new(0xFF) = 0xF`, and
`RawU24::new(0xFFFFFFFF) = 0xFFFFFF`. -/
theorem C4_new_masks (K : RawKind) (hK : K ∈ allRawKinds) (v : Nat) :
    (RawValue.new K v).into_inner = v &&& (2 ^ K.bpp - 1) ∧
    (RawValue.new RawU1 0xFF).into_inner = 0x1 ∧
    (RawValue.new RawU2 0xFF).into_inner = 0x3 ∧
    (RawValue.new RawU4 0xFF).into_inner = 0xF ∧
    (RawValue.new RawU24 0xFFFFFFFF).into_inner = 0xFFFFFF := by
  refine ⟨?_, by decide, by decide, by decide, by decide⟩
  show v &&& K.MASK = v &&& (2 ^ K.bpp - 1)
  rw [RawKind.MASK_eq K hK]

/-- Witness for C4 at the concrete kind `RawU8` and value 300. -/
theorem C4_new_masks_witness :
    (RawValue.new RawU8 300).into_inner = 300 &&& (2 ^ RawU8.bpp - 1) :=
  (C4_new_masks RawU8 (by decide) 300).1

/-- C6: for every width, `from_u32(v)` equals `new` applied to `v` truncated
to the storage width, and the resulting storage value is `v % 2 ^ width`:
truncation then masking, never failing. -/
theorem C6_from_u32_truncates (K : RawKind) (hK : K ∈ allRawKinds) (v : Nat) :
    RawValue.from_u32 K v = RawValue.new K (v % 2 ^ K.storageBits) ∧
    (RawValue.from_u32 K v).into_inner = v % 2 ^ K.bpp := by
  refine ⟨rfl, ?_⟩
  show (v % 2 ^ K.storageBits) &&& K.MASK = v % 2 ^ K.bpp
  rw [RawKind.MASK_eq K hK, Nat.and_pow_two_sub_one_eq_mod]
  exact Nat.mod_mod_of_dvd v (pow_dvd_pow 2 (RawKind.bpp_le_storageBits K hK))

/-- Witness for C6 at the concrete kind `RawU24` and value `0xAABBCCDD`. -/
theorem C6_from_u32_truncates_witness :
    (RawValue.from_u32 RawU24 0xAABBCCDD).into_inner = 0xAABBCCDD % 2 ^ RawU24.bpp :=
  (C6_from_u32_truncates RawU24 (by decide) 0xAABBCCDD).2

/-- C7: for every width and storage value, construction through the
`From<storage>` conversion coincides with `new`. -/
theorem C7_fromStorage_eq_new (K : RawKind) (v : Nat) :
    RawValue.fromStorage K v = RawValue.new K v :=
  rfl

/-- C8: 4-bit width, `LittleEndianMsb0`, buffer `[0b0001_0010, 0b0100_1111]`:
loads at indices 0, 1, 2, 3 yield the values 1, 2, 4, 15. -/
theorem C8_scenario_4bit_le :
    (RawValue.load RawU4 .littleEndianMsb0 [0b00010010, 0b01001111] 0).map
      RawValue.into_inner = some 1 ∧
    (RawValue.load RawU4 .littleEndianMsb0 [0b00010010, 0b01001111] 1).map
      RawValue.into_inner = some 2 ∧
    (RawValue.load RawU4 .littleEndianMsb0 [0b00010010, 0b01001111] 2).map
      RawValue.into_inner = some 4 ∧
    (RawValue.load RawU4 .littleEndianMsb0 [0b00010010, 0b01001111] 3).map
      RawValue.into_inner = some 15 := by
  decide

/-- C10: filling with `BinaryColor::Off` on the foreground variant, or with
`BinaryColor::On` on the background variant, succeeds immediately and leaves
the parent draw target untouched, for every parent `fill_solid` behavior. -/
theorem C10_fill_solid_noop {S Rect C E : Type}
    (parentFillSolid : Rect → C → S → Except E S) (fg bg : C) (area : Rect)
    (parent : S) :
    foregroundFillSolid parentFillSolid fg area BinaryColor.off parent =
      Except.ok parent ∧
    backgroundFillSolid parentFillSolid bg area BinaryColor.on parent =
      Except.ok parent :=
  ⟨rfl, rfl⟩

/-! ### Bit-level lemmas about the sub-byte read-modify-write -/

/-- Extracting `w` bits at position `s` reads exactly the bits `s + k` of the
source. -/
theorem testBit_extract (x s w k : Nat) :
    ((x >>> s) &&& (2 ^ w - 1)).testBit k = (x.testBit (s + k) && decide (k < w)) := by
  rw [Nat.testBit_land, Nat.testBit_shiftRight, Nat.testBit_two_pow_sub_one]

/-- A value masked to `w` bits has no bit at positions `≥ w`. -/
theorem masked_testBit_eq_false (value w j : Nat) (h : w ≤ j) :
    (value &&& (2 ^ w - 1)).testBit j = false := by
  apply Nat.testBit_lt_two_pow
  calc value &&& (2 ^ w - 1) = value % 2 ^ w := Nat.and_pow_two_sub_one_eq_mod value w
    _ < 2 ^ w := Nat.mod_lt _ (Nat.pos_pow_of_pos w (by norm_num))
    _ ≤ 2 ^ j := Nat.pow_le_pow_right (by norm_num) h

/-- Bit description of the sub-byte read-modify-write: inside the target bit
range the result carries the bits of the masked value, elsewhere below bit 8
it carries the bits of the original byte, and it has no bit at 8 or above. -/
theorem storeSubByte_testBit (bpp : Nat) (order : DataOrder) (value slot b k : Nat)
    (h : subByteShift order bpp slot + bpp ≤ 8) :
    (storeSubByte bpp order value slot b).testBit k =
      if subByteShift order bpp slot ≤ k ∧ k < subByteShift order bpp slot + bpp then
        (value &&& (2 ^ bpp - 1)).testBit (k - subByteShift order bpp slot)
      else if k < 8 then b.testBit k
      else false := by
  set sh := subByteShift order bpp slot with hsh
  rw [storeSubByte]
  simp only [← hsh]
  rw [show (255 : Nat) = 2 ^ 8 - 1 by norm_num]
  simp only [Nat.testBit_lor, Nat.testBit_land, Nat.testBit_xor, Nat.testBit_shiftLeft,
    Nat.testBit_two_pow_sub_one]
  by_cases h1 : sh ≤ k ∧ k < sh + bpp
  · rw [if_pos h1]
    have hk8 : k < 8 := by omega
    have hge : k ≥ sh := h1.1
    have hlt : k - sh < bpp := by omega
    simp [hk8, hge, hlt, Nat.testBit_two_pow_sub_one]
  · rw [if_neg h1]
    by_cases hk8 : k < 8
    · rw [if_pos hk8]
      by_cases hge : sh ≤ k
      · have hbw : bpp ≤ k - sh := by omega
        simp [hk8, hge, masked_testBit_eq_false _ _ _ hbw, Nat.testBit_two_pow_sub_one,
          show ¬(k - sh < bpp) by omega]
      · simp [hk8, show ¬(k ≥ sh) by omega]
    · rw [if_neg hk8]
      have hge : sh ≤ k := by omega
      have hbw : bpp ≤ k - sh := by omega
      simp [hk8, hge, masked_testBit_eq_false _ _ _ hbw, Nat.testBit_two_pow_sub_one,
        show ¬(k - sh < bpp) by omega]

/-- Loading back the slot just stored returns the masked value. -/
theorem storeSubByte_extract_self (bpp : Nat) (order : DataOrder) (value slot b : Nat)
    (h : subByteShift order bpp slot + bpp ≤ 8) :
    (storeSubByte bpp order value slot b >>> subByteShift order bpp slot) &&&
      (2 ^ bpp - 1) = value &&& (2 ^ bpp - 1) := by
  apply Nat.eq_of_testBit_eq
  intro k
  rw [testBit_extract, storeSubByte_testBit bpp order value slot b _ h]
  by_cases hk : k < bpp
  · have hin : subByteShift order bpp slot ≤ subByteShift order bpp slot + k ∧
        subByteShift order bpp slot + k < subByteShift order bpp slot + bpp := by
      omega
    rw [if_pos hin, Nat.add_sub_cancel_left]
    simp [hk]
  · simp [hk, masked_testBit_eq_false value bpp k (by omega)]

/-- Loading a slot whose bit range is disjoint from the stored slot's range
reads exactly what it read before the store. -/
theorem storeSubByte_extract_other (bpp : Nat) (order : DataOrder)
    (value slot slot' b : Nat) (h : subByteShift order bpp slot + bpp ≤ 8)
    (h' : subByteShift order bpp slot' + bpp ≤ 8)
    (hdisj : subByteShift order bpp slot' + bpp ≤ subByteShift order bpp slot ∨
      subByteShift order bpp slot + bpp ≤ subByteShift order bpp slot') :
    (storeSubByte bpp order value slot b >>> subByteShift order bpp slot') &&&
      (2 ^ bpp - 1) = (b >>> subByteShift order bpp slot') &&& (2 ^ bpp - 1) := by
  apply Nat.eq_of_testBit_eq
  intro k
  rw [testBit_extract, testBit_extract, storeSubByte_testBit bpp order value slot b _ h]
  by_cases hk : k < bpp
  · have hnotin : ¬(subByteShift order bpp slot ≤ subByteShift order bpp slot' + k ∧
        subByteShift order bpp slot' + k < subByteShift order bpp slot + bpp) := by
      omega
    have hlt8 : subByteShift order bpp slot' + k < 8 := by omega
    rw [if_neg hnotin, if_pos hlt8]
  · simp [hk]

/-- For the sub-byte widths, every slot's bit range fits in the byte. -/
theorem subByteShift_add_bpp_le (bpp : Nat) (hbpp : bpp = 1 ∨ bpp = 2 ∨ bpp = 4)
    (order : DataOrder) (slot : Nat) (hslot : slot < 8 / bpp) :
    subByteShift order bpp slot + bpp ≤ 8 := by
  rcases hbpp with h | h | h <;> subst h <;> cases order <;>
    simp only [subByteShift] <;> omega

/-- For the sub-byte widths, distinct slots of a byte have disjoint bit
ranges, under either order. -/
theorem subByteShift_disjoint (bpp : Nat) (hbpp : bpp = 1 ∨ bpp = 2 ∨ bpp = 4)
    (order : DataOrder) (s s' : Nat) (hs : s < 8 / bpp) (hs' : s' < 8 / bpp)
    (hne : s ≠ s') :
    subByteShift order bpp s' + bpp ≤ subByteShift order bpp s ∨
      subByteShift order bpp s + bpp ≤ subByteShift order bpp s' := by
  rcases hbpp with h | h | h <;> subst h <;> cases order <;>
    simp only [subByteShift] <;> omega

/-! ### Byte-sequence and buffer lemmas for the byte-aligned case -/

/-- `valueToBytesLE` produces exactly `n` bytes. -/
theorem valueToBytesLE_length (n : Nat) : ∀ v, (valueToBytesLE n v).length = n := by
  induction n with
  | zero => intro v; rfl
  | succ n ih => intro v; simp [valueToBytesLE, ih]

/-- Every byte produced by `valueToBytesLE` is below 256. -/
theorem valueToBytesLE_lt (n : Nat) :
    ∀ v, ∀ x ∈ valueToBytesLE n v, x < 256 := by
  induction n with
  | zero => intro v x hx; simp [valueToBytesLE] at hx
  | succ n ih =>
    intro v x hx
    rw [valueToBytesLE] at hx
    rcases List.mem_cons.mp hx with h | h
    · subst h
      have : v &&& 255 = v % 256 := by
        rw [show (255 : Nat) = 2 ^ 8 - 1 by norm_num, Nat.and_pow_two_sub_one_eq_mod]
      rw [this]
      exact Nat.mod_lt _ (by norm_num)
    · exact ih _ x h

/-- Reassembling the little-endian byte split recovers the value modulo
`2 ^ (8 * n)`. -/
theorem bytesToValueLE_valueToBytesLE (n : Nat) :
    ∀ v, bytesToValueLE (valueToBytesLE n v) = v % 2 ^ (8 * n) := by
  induction n with
  | zero => intro v; simp [valueToBytesLE, bytesToValueLE, Nat.mod_one]
  | succ n ih =>
    intro v
    rw [valueToBytesLE, bytesToValueLE, ih]
    rw [show (255 : Nat) = 2 ^ 8 - 1 by norm_num, Nat.and_pow_two_sub_one_eq_mod,
      Nat.shiftRight_eq_div_pow]
    rw [show 8 * (n + 1) = 8 + 8 * n by ring, pow_add]
    rw [Nat.mod_mul]
    norm_num

/-- Assembling bytes below 256 yields a value below `2 ^ (8 * length)`. -/
theorem bytesToValueLE_lt (bs : List Nat) (hb : ∀ x ∈ bs, x < 256) :
    bytesToValueLE bs < 2 ^ (8 * bs.length) := by
  induction bs with
  | nil => simp [bytesToValueLE]
  | cons b bs ih =>
    rw [bytesToValueLE, List.length_cons]
    have hb0 : b < 256 := hb b (List.mem_cons_self b bs)
    have ht : bytesToValueLE bs < 2 ^ (8 * bs.length) :=
      ih (fun x hx => hb x (List.mem_cons_of_mem b hx))
    have hpow : 2 ^ (8 * (bs.length + 1)) = 256 * 2 ^ (8 * bs.length) := by
      rw [show 8 * (bs.length + 1) = 8 + 8 * bs.length by ring, pow_add]
      norm_num
    rw [hpow]
    calc b + 256 * bytesToValueLE bs < 256 * (bytesToValueLE bs + 1) := by omega
      _ ≤ 256 * 2 ^ (8 * bs.length) := Nat.mul_le_mul_left 256 (by omega)

/-- `setBytes` never changes the buffer length. -/
theorem setBytes_length (bs : List Nat) :
    ∀ buffer off, (setBytes buffer off bs).length = buffer.length := by
  induction bs with
  | nil => intro buffer off; rfl
  | cons b bs ih =>
    intro buffer off
    rw [setBytes, ih, List.length_set]

/-- `setBytes` leaves the bytes strictly before the written range alone. -/
theorem setBytes_getD_lt (bs : List Nat) :
    ∀ buffer off k, k < off → (setBytes buffer off bs).getD k 0 = buffer.getD k 0 := by
  induction bs with
  | nil => intro buffer off k _; rfl
  | cons b bs ih =>
    intro buffer off k hk
    rw [setBytes, ih _ _ _ (by omega), List.getD_eq_getElem?_getD,
      List.getD_eq_getElem?_getD, List.getElem?_set_ne (by omega)]

/-- `setBytes` leaves the bytes at or after the end of the written range
alone. -/
theorem setBytes_getD_ge (bs : List Nat) :
    ∀ buffer off k, off + bs.length ≤ k →
      (setBytes buffer off bs).getD k 0 = buffer.getD k 0 := by
  induction bs with
  | nil => intro buffer off k _; rfl
  | cons b bs ih =>
    intro buffer off k hk
    rw [List.length_cons] at hk
    rw [setBytes, ih _ _ _ (by omega), List.getD_eq_getElem?_getD,
      List.getD_eq_getElem?_getD, List.getElem?_set_ne (by omega)]

/-- Reading back the bytes just written returns them unchanged. -/
theorem readBytes_setBytes (bs : List Nat) :
    ∀ buffer off, off + bs.length ≤ buffer.length →
      readBytes (setBytes buffer off bs) off bs.length = bs := by
  induction bs with
  | nil => intro buffer off _; rfl
  | cons b bs ih =>
    intro buffer off h
    rw [List.length_cons] at h ⊢
    rw [readBytes, setBytes]
    congr 1
    · rw [setBytes_getD_lt bs _ _ _ (by omega), List.getD_eq_getElem?_getD,
        List.getElem?_set_self (by omega)]
      rfl
    · exact ih (buffer.set off b) (off + 1) (by rw [List.length_set]; omega)

/-- A buffer byte read through `getD` with default 0 is below 256 whenever
all buffer bytes are. -/
theorem getD_lt_256 (buffer : List Nat) (hb : ∀ x ∈ buffer, x < 256) (off : Nat) :
    buffer.getD off 0 < 256 := by
  by_cases h : off < buffer.length
  · rw [List.getD_eq_getElem?_getD, List.getElem?_eq_getElem h]
    exact hb _ (List.getElem_mem h)
  · rw [List.getD_eq_getElem?_getD, List.getElem?_eq_none (by omega)]
    norm_num

/-- All bytes returned by `readBytes` are below 256 whenever all buffer
bytes are. -/
theorem readBytes_lt (buffer : List Nat) (hb : ∀ x ∈ buffer, x < 256) :
    ∀ n off, ∀ x ∈ readBytes buffer off n, x < 256 := by
  intro n
  induction n with
  | zero => intro off x hx; simp [readBytes] at hx
  | succ n ih =>
    intro off x hx
    rw [readBytes] at hx
    rcases List.mem_cons.mp hx with h | h
    · subst h; exact getD_lt_256 buffer hb off
    · exact ih (off + 1) x h

/-- `readBytes` returns exactly `n` bytes. -/
theorem readBytes_length (buffer : List Nat) :
    ∀ n off, (readBytes buffer off n).length = n := by
  intro n
  induction n with
  | zero => intro off; rfl
  | succ n ih => intro off; rw [readBytes, List.length_cons, ih]

/-! ### Characterizations of the addressing engine on in-bounds indices -/

/-- The seven widths split into byte-aligned ones and the sub-byte ones. -/
theorem kinds_bpp_cases :
    ∀ K ∈ allRawKinds, K.bpp % 8 = 0 ∨ K.bpp = 1 ∨ K.bpp = 2 ∨ K.bpp = 4 := by
  decide

/-- Every width of the family is positive. -/
theorem kinds_bpp_pos : ∀ K ∈ allRawKinds, 0 < K.bpp := by
  decide

/-- For sub-byte widths, the in-bounds condition puts the target byte inside
the buffer. -/
theorem subByte_byteIndex_lt (bpp : Nat) (hbpp : bpp = 1 ∨ bpp = 2 ∨ bpp = 4)
    (len index : Nat) (h : (index + 1) * bpp ≤ len * 8) :
    index / (8 / bpp) < len := by
  rcases hbpp with h1 | h1 | h1 <;> subst h1 <;> norm_num <;> omega

/-- In-bounds sub-byte load: extract the slot's bits from the target byte. -/
theorem rawLoad_subByte (bpp : Nat) (hbpp : bpp = 1 ∨ bpp = 2 ∨ bpp = 4)
    (order : DataOrder) (buffer : List Nat) (index : Nat)
    (h : (index + 1) * bpp ≤ buffer.length * 8) :
    rawLoad bpp order buffer index =
      some ((buffer.getD (index / (8 / bpp)) 0 >>>
        subByteShift order bpp (index % (8 / bpp))) &&& (2 ^ bpp - 1)) := by
  have hb := subByte_byteIndex_lt bpp hbpp buffer.length index h
  have hmod : ¬(bpp % 8 = 0) := by rcases hbpp with h1 | h1 | h1 <;> subst h1 <;> decide
  simp only [rawLoad]
  rw [if_neg (by omega), if_neg hmod, if_neg (by omega)]

/-- In-bounds sub-byte store: read-modify-write of the target byte. -/
theorem rawStore_subByte (bpp : Nat) (hbpp : bpp = 1 ∨ bpp = 2 ∨ bpp = 4)
    (order : DataOrder) (value : Nat) (buffer : List Nat) (index : Nat)
    (h : (index + 1) * bpp ≤ buffer.length * 8) :
    rawStore bpp order value buffer index =
      Except.ok (buffer.set (index / (8 / bpp))
        (storeSubByte bpp order value (index % (8 / bpp))
          (buffer.getD (index / (8 / bpp)) 0))) := by
  have hb := subByte_byteIndex_lt bpp hbpp buffer.length index h
  have hmod : ¬(bpp % 8 = 0) := by rcases hbpp with h1 | h1 | h1 <;> subst h1 <;> decide
  simp only [rawStore]
  rw [if_neg (by omega), if_neg hmod, if_neg (by omega)]

/-- In-bounds byte-aligned load: assemble `bpp / 8` consecutive bytes. -/
theorem rawLoad_aligned (bpp : Nat) (ha : bpp % 8 = 0) (order : DataOrder)
    (buffer : List Nat) (index : Nat)
    (h : (index + 1) * bpp ≤ buffer.length * 8) :
    rawLoad bpp order buffer index = some (match order with
      | .littleEndianMsb0 =>
          bytesToValueLE (readBytes buffer (index * (bpp / 8)) (bpp / 8))
      | .bigEndianLsb0 =>
          bytesToValueLE (readBytes buffer (index * (bpp / 8)) (bpp / 8)).reverse) := by
  simp only [rawLoad]
  rw [if_neg (by omega), if_pos ha]
  cases order <;> rfl

/-- In-bounds byte-aligned store: overwrite `bpp / 8` consecutive bytes. -/
theorem rawStore_aligned (bpp : Nat) (ha : bpp % 8 = 0) (order : DataOrder)
    (value : Nat) (buffer : List Nat) (index : Nat)
    (h : (index + 1) * bpp ≤ buffer.length * 8) :
    rawStore bpp order value buffer index =
      Except.ok (setBytes buffer (index * (bpp / 8)) (match order with
        | .littleEndianMsb0 => valueToBytesLE (bpp / 8) value
        | .bigEndianLsb0 => (valueToBytesLE (bpp / 8) value).reverse)) := by
  simp only [rawStore]
  rw [if_neg (by omega), if_pos ha]

/-- On an in-bounds index every load of a family width succeeds. -/
theorem rawLoad_isSome (bpp : Nat)
    (hbpp : bpp % 8 = 0 ∨ bpp = 1 ∨ bpp = 2 ∨ bpp = 4) (order : DataOrder)
    (buffer : List Nat) (index : Nat)
    (h : (index + 1) * bpp ≤ buffer.length * 8) :
    ∃ v, rawLoad bpp order buffer index = some v := by
  by_cases ha : bpp % 8 = 0
  · exact ⟨_, rawLoad_aligned bpp ha order buffer index h⟩
  · have hbpp' : bpp = 1 ∨ bpp = 2 ∨ bpp = 4 := by tauto
    exact ⟨_, rawLoad_subByte bpp hbpp' order buffer index h⟩

/-- On an in-bounds index every store of a family width succeeds. -/
theorem rawStore_isOk (bpp : Nat)
    (hbpp : bpp % 8 = 0 ∨ bpp = 1 ∨ bpp = 2 ∨ bpp = 4) (order : DataOrder)
    (value : Nat) (buffer : List Nat) (index : Nat)
    (h : (index + 1) * bpp ≤ buffer.length * 8) :
    ∃ buffer', rawStore bpp order value buffer index = Except.ok buffer' := by
  by_cases ha : bpp % 8 = 0
  · exact ⟨_, rawStore_aligned bpp ha order value buffer index h⟩
  · have hbpp' : bpp = 1 ∨ bpp = 2 ∨ bpp = 4 := by tauto
    exact ⟨_, rawStore_subByte bpp hbpp' order value buffer index h⟩

/-- C2: for every family width, order, buffer and index, `load` returns
`none` and `store` returns `OutOfBoundsError` exactly when
`(index + 1) * width > buffer.length * 8`; when the bit range fits, `load`
returns `some` and `store` returns `ok`. -/
theorem C2_bounds_check (K : RawKind) (hK : K ∈ allRawKinds) (order : DataOrder)
    (buffer : List Nat) (index : Nat) (r : RawValue K) :
    (RawValue.load K order buffer index = none ↔
      (index + 1) * K.bpp > buffer.length * 8) ∧
    (r.store order buffer index = Except.error OutOfBoundsError.outOfBoundsError ↔
      (index + 1) * K.bpp > buffer.length * 8) ∧
    ((index + 1) * K.bpp ≤ buffer.length * 8 →
      (∃ v, RawValue.load K order buffer index = some v) ∧
      ∃ buffer', r.store order buffer index = Except.ok buffer') := by
  have hbpp := kinds_bpp_cases K hK
  by_cases hc : (index + 1) * K.bpp > buffer.length * 8
  · refine ⟨⟨fun _ => hc, fun _ => ?_⟩, ⟨fun _ => hc, fun _ => ?_⟩,
      fun h => absurd hc (by omega)⟩
    · simp [RawValue.load, rawLoad, if_pos hc]
    · simp [RawValue.store, rawStore, if_pos hc]
  · obtain ⟨v, hv⟩ := rawLoad_isSome K.bpp hbpp order buffer index (by omega)
    obtain ⟨b', hb'⟩ := rawStore_isOk K.bpp hbpp order r.val buffer index (by omega)
    refine ⟨⟨fun hn => ?_, fun h => absurd h hc⟩,
      ⟨fun he => ?_, fun h => absurd h hc⟩,
      fun _ => ⟨⟨⟨v⟩, ?_⟩, ⟨b', ?_⟩⟩⟩
    · rw [RawValue.load, hv] at hn
      simp at hn
    · rw [RawValue.store, hb'] at he
      simp at he
    · rw [RawValue.load, hv]
      rfl
    · rw [RawValue.store, hb']

/-- Witness for C2 at the kind `RawU4` on a one-byte buffer: index 1 is in
bounds, index 2 is out of bounds. -/
theorem C2_bounds_check_witness :
    (RawValue.load RawU4 DataOrder.bigEndianLsb0 [0xAB] 2 = none ↔
      (2 + 1) * RawU4.bpp > [0xAB].length * 8) ∧
    ((RawValue.new RawU4 5).store DataOrder.bigEndianLsb0 [0xAB] 2 =
        Except.error OutOfBoundsError.outOfBoundsError ↔
      (2 + 1) * RawU4.bpp > [0xAB].length * 8) ∧
    ((2 + 1) * RawU4.bpp ≤ [0xAB].length * 8 →
      (∃ v, RawValue.load RawU4 DataOrder.bigEndianLsb0 [0xAB] 2 = some v) ∧
      ∃ buffer', (RawValue.new RawU4 5).store DataOrder.bigEndianLsb0 [0xAB] 2 =
        Except.ok buffer') :=
  C2_bounds_check RawU4 (by decide) DataOrder.bigEndianLsb0 [0xAB] 2
    (RawValue.new RawU4 5)

/-! ### Round-trip (claim C1) -/

/-- Little-endian byte-aligned round-trip on the raw byte level. -/
theorem aligned_roundtrip_le (n : Nat) (buffer : List Nat) (off value : Nat)
    (h : off + n ≤ buffer.length) (hv : value < 2 ^ (8 * n)) :
    bytesToValueLE
      (readBytes (setBytes buffer off (valueToBytesLE n value)) off n) = value := by
  have hlen := valueToBytesLE_length n value
  have hr := readBytes_setBytes (valueToBytesLE n value) buffer off
    (by rw [hlen]; omega)
  rw [hlen] at hr
  rw [hr, bytesToValueLE_valueToBytesLE, Nat.mod_eq_of_lt hv]

/-- Big-endian byte-aligned round-trip on the raw byte level. -/
theorem aligned_roundtrip_be (n : Nat) (buffer : List Nat) (off value : Nat)
    (h : off + n ≤ buffer.length) (hv : value < 2 ^ (8 * n)) :
    bytesToValueLE
      (readBytes (setBytes buffer off (valueToBytesLE n value).reverse) off
        n).reverse = value := by
  have hlen : (valueToBytesLE n value).reverse.length = n := by
    rw [List.length_reverse, valueToBytesLE_length]
  have hr := readBytes_setBytes (valueToBytesLE n value).reverse buffer off
    (by rw [hlen]; omega)
  rw [hlen] at hr
  rw [hr, List.reverse_reverse, bytesToValueLE_valueToBytesLE, Nat.mod_eq_of_lt hv]

/-- C1: for every family width, either order, any byte buffer and any index
whose bit range lies inside the buffer, storing a masked value and loading
at the same index under the same order returns exactly that value. -/
theorem C1_store_load_roundtrip (K : RawKind) (hK : K ∈ allRawKinds)
    (order : DataOrder) (buffer : List Nat) (index v : Nat)
    (hbound : (index + 1) * K.bpp ≤ buffer.length * 8) (buffer' : List Nat)
    (hstore : (RawValue.new K v).store order buffer index = Except.ok buffer') :
    RawValue.load K order buffer' index = some (RawValue.new K v) := by
  have hval : (RawValue.new K v).val = v % 2 ^ K.bpp := by
    show v &&& K.MASK = v % 2 ^ K.bpp
    rw [RawKind.MASK_eq K hK, Nat.and_pow_two_sub_one_eq_mod]
  have hmodmod : (RawValue.new K v).val &&& (2 ^ K.bpp - 1) = (RawValue.new K v).val := by
    rw [hval, Nat.and_pow_two_sub_one_eq_mod, Nat.mod_mod_of_dvd v dvd_rfl]
  rw [RawValue.store] at hstore
  by_cases ha : K.bpp % 8 = 0
  · -- byte-aligned widths: whole bytes are overwritten and read back
    have h8n : 8 * (K.bpp / 8) = K.bpp := Nat.mul_div_cancel' (Nat.dvd_of_mod_eq_zero ha)
    have hoff : index * (K.bpp / 8) + K.bpp / 8 ≤ buffer.length := by
      have h1 : (index + 1) * (K.bpp / 8) * 8 ≤ buffer.length * 8 := by
        calc (index + 1) * (K.bpp / 8) * 8 = (index + 1) * (8 * (K.bpp / 8)) := by ring
          _ = (index + 1) * K.bpp := by rw [h8n]
          _ ≤ buffer.length * 8 := hbound
      have h2 : (index + 1) * (K.bpp / 8) ≤ buffer.length :=
        Nat.le_of_mul_le_mul_right h1 (by norm_num : 0 < 8)
      calc index * (K.bpp / 8) + K.bpp / 8 = (index + 1) * (K.bpp / 8) := by ring
        _ ≤ buffer.length := h2
    have hvlt : (RawValue.new K v).val < 2 ^ (8 * (K.bpp / 8)) := by
      rw [h8n, hval]
      exact Nat.mod_lt _ (Nat.pos_pow_of_pos _ (by norm_num))
    rw [rawStore_aligned K.bpp ha order _ buffer index hbound] at hstore
    simp only [Except.ok.injEq] at hstore
    subst hstore
    have hlenb : (setBytes buffer (index * (K.bpp / 8)) (match order with
        | DataOrder.littleEndianMsb0 => valueToBytesLE (K.bpp / 8) (RawValue.new K v).val
        | DataOrder.bigEndianLsb0 =>
            (valueToBytesLE (K.bpp / 8) (RawValue.new K v).val).reverse)).length =
        buffer.length := setBytes_length _ _ _
    rw [RawValue.load, rawLoad_aligned K.bpp ha order _ index (by rw [hlenb]; omega)]
    cases order
    · rw [aligned_roundtrip_le (K.bpp / 8) buffer (index * (K.bpp / 8))
        (RawValue.new K v).val hoff hvlt]
      rfl
    · rw [aligned_roundtrip_be (K.bpp / 8) buffer (index * (K.bpp / 8))
        (RawValue.new K v).val hoff hvlt]
      rfl
  · -- sub-byte widths: read-modify-write of the shared byte
    have hbpp' : K.bpp = 1 ∨ K.bpp = 2 ∨ K.bpp = 4 := by
      have := kinds_bpp_cases K hK
      tauto
    have hper : 0 < 8 / K.bpp := by rcases hbpp' with h1 | h1 | h1 <;> rw [h1] <;> norm_num
    have hslot : index % (8 / K.bpp) < 8 / K.bpp := Nat.mod_lt _ hper
    have hsh := subByteShift_add_bpp_le K.bpp hbpp' order _ hslot
    have hbi := subByte_byteIndex_lt K.bpp hbpp' buffer.length index hbound
    rw [rawStore_subByte K.bpp hbpp' order _ buffer index hbound] at hstore
    simp only [Except.ok.injEq] at hstore
    subst hstore
    have hlenb : (buffer.set (index / (8 / K.bpp))
        (storeSubByte K.bpp order (RawValue.new K v).val (index % (8 / K.bpp))
          (buffer.getD (index / (8 / K.bpp)) 0))).length = buffer.length :=
      List.length_set _ _ _
    rw [RawValue.load, rawLoad_subByte K.bpp hbpp' order _ index (by rw [hlenb]; omega)]
    have hgd : (buffer.set (index / (8 / K.bpp))
        (storeSubByte K.bpp order (RawValue.new K v).val (index % (8 / K.bpp))
          (buffer.getD (index / (8 / K.bpp)) 0))).getD (index / (8 / K.bpp)) 0 =
        storeSubByte K.bpp order (RawValue.new K v).val (index % (8 / K.bpp))
          (buffer.getD (index / (8 / K.bpp)) 0) := by
      rw [List.getD_eq_getElem?_getD, List.getElem?_set_self hbi]
      rfl
    rw [hgd, storeSubByte_extract_self K.bpp order _ _ _ hsh, hmodmod]
    rfl

/-- Witness for C1: storing the 2-bit value 3 at index 1 of a one-byte
buffer under `BigEndianLsb0` and loading it back returns 3. -/
theorem C1_store_load_roundtrip_witness :
    RawValue.load RawU2 DataOrder.bigEndianLsb0 [0b11001100] 1 =
      some (RawValue.new RawU2 3) :=
  C1_store_load_roundtrip RawU2 (by decide) DataOrder.bigEndianLsb0 [0b11000000] 1 3
    (by decide) [0b11001100] (by rfl)

/-! ### Non-interference of sub-byte stores (claim C3) -/

/-- Out-of-bounds load returns `none` for any width. -/
theorem rawLoad_oob (bpp : Nat) (order : DataOrder) (buffer : List Nat)
    (index : Nat) (h : (index + 1) * bpp > buffer.length * 8) :
    rawLoad bpp order buffer index = none := by
  simp only [rawLoad]
  rw [if_pos h]

/-- The three sub-byte kinds have widths 1, 2 and 4. -/
theorem subByte_kinds_bpp :
    ∀ K ∈ [RawU1, RawU2, RawU4], K.bpp = 1 ∨ K.bpp = 2 ∨ K.bpp = 4 := by
  decide

/-- The three sub-byte kinds belong to the family. -/
theorem subByte_kinds_mem :
    ∀ K ∈ [RawU1, RawU2, RawU4], K ∈ allRawKinds := by
  decide

/-- C3: for every sub-byte width (1, 2 or 4 bits), either order and any
in-bounds index `i`, after storing at `i` the value loadable at every other
index `j` — including indices sharing `i`'s byte — is unchanged, and every
bit of the modified byte outside the target bit range is unchanged. -/
theorem C3_subByte_noninterference (K : RawKind) (hK : K ∈ [RawU1, RawU2, RawU4])
    (order : DataOrder) (buffer : List Nat) (i v : Nat)
    (hbound : (i + 1) * K.bpp ≤ buffer.length * 8) (buffer' : List Nat)
    (hstore : (RawValue.new K v).store order buffer i = Except.ok buffer') :
    (∀ j, j ≠ i → RawValue.load K order buffer' j = RawValue.load K order buffer j) ∧
    (∀ k, k < 8 →
      (k < subByteShift order K.bpp (i % (8 / K.bpp)) ∨
        subByteShift order K.bpp (i % (8 / K.bpp)) + K.bpp ≤ k) →
      (buffer'.getD (i / (8 / K.bpp)) 0).testBit k =
        (buffer.getD (i / (8 / K.bpp)) 0).testBit k) := by
  have hbpp' := subByte_kinds_bpp K hK
  have hper : 0 < 8 / K.bpp := by rcases hbpp' with h1 | h1 | h1 <;> rw [h1] <;> norm_num
  have hsloti : i % (8 / K.bpp) < 8 / K.bpp := Nat.mod_lt _ hper
  have hshi := subByteShift_add_bpp_le K.bpp hbpp' order _ hsloti
  have hbi := subByte_byteIndex_lt K.bpp hbpp' buffer.length i hbound
  rw [RawValue.store, rawStore_subByte K.bpp hbpp' order _ buffer i hbound] at hstore
  simp only [Except.ok.injEq] at hstore
  subst hstore
  have hlenb : (buffer.set (i / (8 / K.bpp))
      (storeSubByte K.bpp order (RawValue.new K v).val (i % (8 / K.bpp))
        (buffer.getD (i / (8 / K.bpp)) 0))).length = buffer.length :=
    List.length_set _ _ _
  have hgd : (buffer.set (i / (8 / K.bpp))
      (storeSubByte K.bpp order (RawValue.new K v).val (i % (8 / K.bpp))
        (buffer.getD (i / (8 / K.bpp)) 0))).getD (i / (8 / K.bpp)) 0 =
      storeSubByte K.bpp order (RawValue.new K v).val (i % (8 / K.bpp))
        (buffer.getD (i / (8 / K.bpp)) 0) := by
    rw [List.getD_eq_getElem?_getD, List.getElem?_set_self hbi]
    rfl
  constructor
  · intro j hji
    by_cases hjb : (j + 1) * K.bpp ≤ buffer.length * 8
    · -- j in bounds: compare the extracted slots
      have hslotj : j % (8 / K.bpp) < 8 / K.bpp := Nat.mod_lt _ hper
      have hshj := subByteShift_add_bpp_le K.bpp hbpp' order _ hslotj
      rw [RawValue.load, RawValue.load,
        rawLoad_subByte K.bpp hbpp' order _ j (by rw [hlenb]; omega),
        rawLoad_subByte K.bpp hbpp' order _ j hjb]
      by_cases hbj : j / (8 / K.bpp) = i / (8 / K.bpp)
      · -- same byte, necessarily a different slot
        have hslotne : j % (8 / K.bpp) ≠ i % (8 / K.bpp) := by
          intro heq
          apply hji
          have h1 := Nat.div_add_mod j (8 / K.bpp)
          have h2 := Nat.div_add_mod i (8 / K.bpp)
          rw [hbj, heq] at h1
          exact h1.symm.trans h2
        have hdisj := subByteShift_disjoint K.bpp hbpp' order
          (i % (8 / K.bpp)) (j % (8 / K.bpp)) hsloti hslotj
          (fun h => hslotne h.symm)
        rw [hbj, hgd, storeSubByte_extract_other K.bpp order _ _ _ _ hshi hshj hdisj]
      · -- different byte: the store touched only byte `i / perByte`
        have : (buffer.set (i / (8 / K.bpp))
            (storeSubByte K.bpp order (RawValue.new K v).val (i % (8 / K.bpp))
              (buffer.getD (i / (8 / K.bpp)) 0))).getD (j / (8 / K.bpp)) 0 =
            buffer.getD (j / (8 / K.bpp)) 0 := by
          rw [List.getD_eq_getElem?_getD, List.getD_eq_getElem?_getD,
            List.getElem?_set_ne (fun h => hbj h.symm), ← List.getD_eq_getElem?_getD]
        rw [this]
    · -- j out of bounds on both buffers
      rw [RawValue.load, RawValue.load, rawLoad_oob _ _ _ _ (by rw [hlenb]; omega),
        rawLoad_oob _ _ _ _ (by omega)]
  · intro k hk8 hkout
    rw [hgd, storeSubByte_testBit K.bpp order _ _ _ _ hshi,
      if_neg (by omega), if_pos hk8]

/-- Witness for C3: storing 9 at index 0 of `[0x12, 0x4F]` under 4-bit
`LittleEndianMsb0` leaves the pixel at index 1 loadable unchanged. -/
theorem C3_subByte_noninterference_witness :
    RawValue.load RawU4 DataOrder.littleEndianMsb0 [0x92, 0x4F] 1 =
      RawValue.load RawU4 DataOrder.littleEndianMsb0 [0x12, 0x4F] 1 :=
  (C3_subByte_noninterference RawU4 (by decide) DataOrder.littleEndianMsb0
    [0x12, 0x4F] 0 9 (by decide) [0x92, 0x4F] (by rfl)).1 1 (by decide)

/-! ### Masking invariant of loaded values (claims C5 and C9) -/

/-- Any value produced by a successful in- or out-of-bounds load of a family
width on a `u8` buffer is below `2 ^ width`. -/
theorem rawLoad_lt_two_pow (K : RawKind) (hK : K ∈ allRawKinds)
    (order : DataOrder) (buffer : List Nat) (index w : Nat)
    (hb : ∀ x ∈ buffer, x < 256)
    (h : rawLoad K.bpp order buffer index = some w) : w < 2 ^ K.bpp := by
  by_cases hc : (index + 1) * K.bpp > buffer.length * 8
  · rw [rawLoad_oob K.bpp order buffer index hc] at h
    exact absurd h (by simp)
  · by_cases ha : K.bpp % 8 = 0
    · have h8n : 8 * (K.bpp / 8) = K.bpp :=
        Nat.mul_div_cancel' (Nat.dvd_of_mod_eq_zero ha)
      rw [rawLoad_aligned K.bpp ha order buffer index (by omega)] at h
      simp only [Option.some.injEq] at h
      cases order
      · subst h
        have := bytesToValueLE_lt
          (readBytes buffer (index * (K.bpp / 8)) (K.bpp / 8))
          (readBytes_lt buffer hb (K.bpp / 8) (index * (K.bpp / 8)))
        rw [readBytes_length, h8n] at this
        exact this
      · subst h
        have hmem : ∀ x ∈ (readBytes buffer (index * (K.bpp / 8)) (K.bpp / 8)).reverse,
            x < 256 := by
          intro x hx
          exact readBytes_lt buffer hb (K.bpp / 8) (index * (K.bpp / 8)) x
            (List.mem_reverse.mp hx)
        have := bytesToValueLE_lt _ hmem
        rw [List.length_reverse, readBytes_length, h8n] at this
        exact this
    · have hbpp' : K.bpp = 1 ∨ K.bpp = 2 ∨ K.bpp = 4 := by
        have := kinds_bpp_cases K hK
        tauto
      rw [rawLoad_subByte K.bpp hbpp' order buffer index (by omega)] at h
      simp only [Option.some.injEq] at h
      subst h
      rw [Nat.and_pow_two_sub_one_eq_mod]
      exact Nat.mod_lt _ (Nat.pos_pow_of_pos _ (by norm_num))

/-- C5: every value obtainable through the public constructors — `new`,
`from_u32`, the `From<storage>` conversion, or a successful `load` on a `u8`
buffer — satisfies the invariant `value = value &&& MASK`. -/
theorem C5_mask_invariant (K : RawKind) (hK : K ∈ allRawKinds) (v : Nat) :
    (RawValue.new K v).val &&& K.MASK = (RawValue.new K v).val ∧
    (RawValue.from_u32 K v).val &&& K.MASK = (RawValue.from_u32 K v).val ∧
    (RawValue.fromStorage K v).val &&& K.MASK = (RawValue.fromStorage K v).val ∧
    ∀ (order : DataOrder) (buffer : List Nat) (index : Nat) (r : RawValue K),
      (∀ x ∈ buffer, x < 256) →
      RawValue.load K order buffer index = some r →
      r.val &&& K.MASK = r.val := by
  have hmask := RawKind.MASK_eq K hK
  have hnew : ∀ u : Nat, (RawValue.new K u).val &&& K.MASK = (RawValue.new K u).val := by
    intro u
    show (u &&& K.MASK) &&& K.MASK = u &&& K.MASK
    rw [hmask, Nat.and_pow_two_sub_one_eq_mod, Nat.and_pow_two_sub_one_eq_mod,
      Nat.mod_mod_of_dvd u dvd_rfl]
  refine ⟨hnew v, hnew _, hnew v, ?_⟩
  intro order buffer index r hb hload
  rw [RawValue.load] at hload
  obtain ⟨w, hw, hr⟩ := Option.map_eq_some'.mp hload
  have hlt := rawLoad_lt_two_pow K hK order buffer index w hb hw
  have hval : r.val = w := by rw [← hr]
  rw [hval, hmask, Nat.and_pow_two_sub_one_eq_mod, Nat.mod_eq_of_lt hlt]

/-- Witness for C5 at the kind `RawU2` and value 7. -/
theorem C5_mask_invariant_witness :
    (RawValue.new RawU2 7).val &&& RawU2.MASK = (RawValue.new RawU2 7).val :=
  (C5_mask_invariant RawU2 (by decide) 7).1

/-- C9: 24-bit width, most-significant-byte-first order, buffer
`[0x11, 0x22, 0x33]`: the load at index 0 yields `0x112233`; and every
successful 24-bit load on a `u8` buffer has the top 8 bits of its 32-bit
result equal to zero. -/
theorem C9_24bit_be_load :
    (RawValue.load RawU24 DataOrder.bigEndianLsb0 [0x11, 0x22, 0x33] 0).map
      RawValue.into_inner = some 0x112233 ∧
    ∀ (order : DataOrder) (buffer : List Nat) (index : Nat) (r : RawValue RawU24),
      (∀ x ∈ buffer, x < 256) →
      RawValue.load RawU24 order buffer index = some r →
      r.into_inner >>> 24 = 0 := by
  refine ⟨by decide, ?_⟩
  intro order buffer index r hb hload
  rw [RawValue.load] at hload
  obtain ⟨w, hw, hr⟩ := Option.map_eq_some'.mp hload
  have hlt := rawLoad_lt_two_pow RawU24 (by decide) order buffer index w hb hw
  have hval : r.into_inner = w := by rw [← hr]; rfl
  rw [hval, Nat.shiftRight_eq_div_pow]
  exact Nat.div_eq_of_lt hlt

/-- Witness for C9's second part at the buffer `[0x11, 0x22, 0x33]`. -/
theorem C9_24bit_be_load_witness :
    (RawValue.mk 0x112233 : RawValue RawU24).into_inner >>> 24 = 0 :=
  C9_24bit_be_load.2 DataOrder.bigEndianLsb0 [0x11, 0x22, 0x33] 0 ⟨0x112233⟩
    (by decide) (by decide)
